import Mathlib

/-!
Verification of the TPS core (`tps_core.py`) text-processing and storage
layer.  Text is modelled as `List Char` (Python strings are sequences of
code points).  Regex-based helpers are translated into explicit scanning
functions; the scanners use a fuel argument equal to the length of the
remaining input so that they are structurally recursive and evaluate by
`decide`/`rfl`.  At every recursive call the fuel equals the length of the
list argument, so the fuel never runs out and the functions compute the
same results as the Python originals.

Unicode caveats, stated once here: Python `\w`, `str.lower()` and
`str.strip()` are Unicode-aware.  They are modelled on the fragment
exercised by this development (ASCII word characters for `\w` and
`lower`, the common whitespace code points for `strip`); none of the
claims settled below depends on the behaviour outside that fragment,
because the universally-quantified claims (tag shape, reading time,
language priority) are insensitive to the exact character class and all
concrete evaluations use characters inside it.
-/

namespace TPS

open scoped List

/-- U+00A0 NO-BREAK SPACE, the second character of the character class in
`re.sub(r"[  ]+", " ", t)`. -/
def nbsp : Char := Char.ofNat 160

/-- The ASCII apostrophe, written via its code point. -/
def apos : Char := Char.ofNat 39

/-- The ASCII double quote, written via its code point. -/
def dq : Char := Char.ofNat 34

/-- The character class `[  ]` of `simple_normalize`. -/
def isSpaceOrNbsp (c : Char) : Bool := c = ' ' || c = nbsp

/-- The characters removed by Python `str.strip()` (Unicode whitespace). -/
def isPyWhitespace (c : Char) : Bool :=
  c = ' ' || c = '\t' || c = '\n' || c = '\r' ||
  c.toNat = 11 || c.toNat = 12 ||
  (28 ≤ c.toNat && c.toNat ≤ 31) || c.toNat = 133 || c = nbsp ||
  c.toNat = 0x1680 || (0x2000 ≤ c.toNat && c.toNat ≤ 0x200a) ||
  c.toNat = 0x2028 || c.toNat = 0x2029 || c.toNat = 0x202f ||
  c.toNat = 0x205f || c.toNat = 0x3000

/-- `text.replace("\t", " ")` — first statement of `simple_normalize`. -/
def replaceTab (l : List Char) : List Char :=
  l.map (fun c => if c = '\t' then ' ' else c)

/-- Scanner for `re.sub(r"[  ]+", " ", t)`: the flag records whether
the previous character belonged to the class (so further class characters
of the same run are dropped). -/
def collapseAux : Bool → List Char → List Char
  | _, [] => []
  | prevSp, c :: rest =>
    if isSpaceOrNbsp c then
      if prevSp then collapseAux true rest else ' ' :: collapseAux true rest
    else c :: collapseAux false rest

/-- `re.sub(r"[  ]+", " ", t)`: every maximal run of spaces and
no-break spaces becomes one space. -/
def collapseSpaces (l : List Char) : List Char := collapseAux false l

/-- `re.sub(r"\r\n?", "\n", t)`: CRLF and lone CR both become LF. -/
def replaceCR : List Char → List Char
  | [] => []
  | [c] => if c = '\r' then ['\n'] else [c]
  | c :: d :: rest =>
    if c = '\r' then
      if d = '\n' then '\n' :: replaceCR rest
      else '\n' :: replaceCR (d :: rest)
    else c :: replaceCR (d :: rest)

/-- Python `str.strip()`. -/
def stripList (l : List Char) : List Char :=
  ((l.dropWhile isPyWhitespace).reverse.dropWhile isPyWhitespace).reverse

/-- Python `str.replace(old, new)`: leftmost non-overlapping occurrences
of `old` are replaced by `new`.  Called with fuel equal to the length of
the list; the fuel stays an upper bound on the length of the remaining
input at every recursive call (each step consumes at least one
character), so the `fuel = 0` base case is only reached on `[]`. -/
def replaceSubstrAux (pat repl : List Char) : Nat → List Char → List Char
  | 0, l => l
  | fuel + 1, l =>
    if pat.isPrefixOf l && !pat.isEmpty then
      repl ++ replaceSubstrAux pat repl fuel (l.drop pat.length)
    else
      match l with
      | [] => []
      | c :: rest => c :: replaceSubstrAux pat repl fuel rest

/-- Python `l.replace(pat, repl)`. -/
def replaceSubstr (pat repl l : List Char) : List Char :=
  replaceSubstrAux pat repl l.length l

/-- The 15-character string that line 104 of `tps_core.py` actually
replaces.  The line is pure ASCII, so Python tokenizes the three
double quotes after the first `replace(` as the opening of a
triple-quoted string which ends at the next three double quotes; the
first argument of the surviving `replace` call is therefore the literal
text between them: comma, space, apostrophe, double quote, apostrophe,
right parenthesis, dot, the letters of `replace`, left parenthesis. -/
def mangledPat : List Char :=
  [',', ' ', apos, dq, apos, ')', '.', 'r', 'e', 'p', 'l', 'a', 'c', 'e', '(']

/-- `simple_normalize` of `tps_core.py` lines 98-105, with line 104
embedded as it parses: one `replace` of `mangledPat` by a double quote,
then a `replace` of an apostrophe by an apostrophe (an identity, kept
for fidelity). -/
def simple_normalize (l : List Char) : List Char :=
  replaceSubstr [apos] [apos]
    (replaceSubstr mangledPat [dq]
      (stripList (replaceCR (collapseSpaces (replaceTab l)))))

/-- `[А-Яа-яЁё]` of `infer_language_guess`. -/
def isCyrillicChar (c : Char) : Bool :=
  (0x410 ≤ c.toNat && c.toNat ≤ 0x44F) || c.toNat = 0x401 || c.toNat = 0x451

/-- `[ぁ-ゟ゠-ヿ一-鿿]` of `infer_language_guess` (hiragana, katakana,
CJK unified ideographs). -/
def isCJKChar (c : Char) : Bool :=
  (0x3041 ≤ c.toNat && c.toNat ≤ 0x309F) ||
  (0x30A0 ≤ c.toNat && c.toNat ≤ 0x30FF) ||
  (0x4E00 ≤ c.toNat && c.toNat ≤ 0x9FFF)

/-- `[áéíóúñü¿¡]` of `infer_language_guess`. -/
def isSpanishChar (c : Char) : Bool :=
  c = 'á' || c = 'é' || c = 'í' || c = 'ó' || c = 'ú' ||
  c = 'ñ' || c = 'ü' || c = '¿' || c = '¡'

/-- `[àâäéèêëîïôöùûüÿç]` of `infer_language_guess`. -/
def isFrenchChar (c : Char) : Bool :=
  c = 'à' || c = 'â' || c = 'ä' || c = 'é' || c = 'è' || c = 'ê' ||
  c = 'ë' || c = 'î' || c = 'ï' || c = 'ô' || c = 'ö' || c = 'ù' ||
  c = 'û' || c = 'ü' || c = 'ÿ' || c = 'ç'

/-- `[äöüß]` of `infer_language_guess`. -/
def isGermanChar (c : Char) : Bool :=
  c = 'ä' || c = 'ö' || c = 'ü' || c = 'ß'

/-- `infer_language_guess` (lines 107-114): `re.search` over a character
class succeeds iff some character of the text is in the class. -/
def infer_language_guess (t : List Char) : String :=
  if t.any isCyrillicChar then "Russian"
  else if t.any isCJKChar then "Japanese/Chinese"
  else if t.any isSpanishChar then "Spanish"
  else if t.any isFrenchChar then "French"
  else if t.any isGermanChar then "German"
  else "English"

/-- Python `\w` on its ASCII fragment: letters, digits, underscore. -/
def isWordChar (c : Char) : Bool := c.isAlphanum || c = '_'

/-- `[a-zA-Z]`. -/
def isAsciiAlphaChar (c : Char) : Bool :=
  ('a' ≤ c && c ≤ 'z') || ('A' ≤ c && c ≤ 'Z')

/-- ASCII lowercasing, the fragment of Python `str.lower()` (and of the
ASCII-only case folding SQLite `LIKE` performs). -/
def asciiLowerChar (c : Char) : Char :=
  if 'A' ≤ c && c ≤ 'Z' then Char.ofNat (c.toNat + 32) else c

/-- `text.lower()` on the ASCII fragment. -/
def lowerList (l : List Char) : List Char := l.map asciiLowerChar

/-- Scanner for `re.findall(r"#(\w+)", text)`: at a `#`, a nonempty run
of word characters is captured and the scan resumes after the run;
otherwise the scan advances one character.  Fuel bounds the length of
the remaining input at every call. -/
def findHashtagsAux : Nat → List Char → List (List Char)
  | 0, _ => []
  | _ + 1, [] => []
  | fuel + 1, c :: rest =>
    if c = '#' then
      let run := rest.takeWhile isWordChar
      if run.isEmpty then findHashtagsAux fuel rest
      else run :: findHashtagsAux fuel (rest.drop run.length)
    else findHashtagsAux fuel rest

/-- `re.findall(r"#(\w+)", text)`. -/
def findHashtags (l : List Char) : List (List Char) :=
  findHashtagsAux l.length l

/-- The maximal runs of word characters of a text, in order — the
matches of `re.findall(r"\w+", text)`.  Fuel as above. -/
def wordRunsAux : Nat → List Char → List (List Char)
  | 0, _ => []
  | _ + 1, [] => []
  | fuel + 1, c :: rest =>
    if isWordChar c then
      let run := rest.takeWhile isWordChar
      (c :: run) :: wordRunsAux fuel (rest.drop run.length)
    else wordRunsAux fuel rest

/-- `re.findall(r"\w+", text)`. -/
def wordRuns (l : List Char) : List (List Char) := wordRunsAux l.length l

/-- `re.findall(r"\b[a-zA-Z]{5,}\b", text)`.  A match must start and end
at word boundaries; inside a maximal run of word characters there is no
boundary, so a match is exactly a maximal word run that is entirely
alphabetic and has length at least 5 (a run containing a digit,
underscore or non-ASCII word character yields no match: the greedy
alphabetic repetition can never be followed by a boundary, and no
interior position is a valid start). -/
def findTokens (l : List Char) : List (List Char) :=
  (wordRuns l).filter (fun r => r.all isAsciiAlphaChar && decide (5 ≤ r.length))

/-- One iteration of the Python loop
`for tok in tokens[:5]: if tok not in tags: tags.append(tok)` —
the membership test sees previously appended tokens. -/
def appendIfNew (acc : List (List Char)) (tok : List Char) : List (List Char) :=
  if tok ∈ acc then acc else acc ++ [tok]

/-- `list(dict.fromkeys(tags))`: keep the first occurrence of each
element, dropping later duplicates.  `seen` accumulates kept elements. -/
def dedupFirstAux (seen : List (List Char)) : List (List Char) → List (List Char)
  | [] => []
  | x :: xs =>
    if x ∈ seen then dedupFirstAux seen xs
    else x :: dedupFirstAux (x :: seen) xs

/-- `list(dict.fromkeys(tags))`. -/
def dedupFirst (l : List (List Char)) : List (List Char) := dedupFirstAux [] l

/-- `extract_tags` (lines 116-123): hashtag matches, then the loop over
the first five tokens appending unseen ones, then
`list(dict.fromkeys(...))[:10]`. -/
def extract_tags (text : List Char) : List (List Char) :=
  (dedupFirst
    (((findTokens (lowerList text)).take 5).foldl appendIfNew (findHashtags text))).take 10

/-- Python `round(wc / 200)` for a natural `wc`: the rational `wc / 200`
rounded half-to-even (CPython banker's rounding; every tie
`wc / 200 = k + 1/2` is a dyadic rational, hence exactly representable
as a float, so the float detour changes nothing for any realistic
count). -/
def roundHalfEvenDiv200 (wc : Nat) : Nat :=
  let q := wc / 200
  let r := wc % 200
  if r < 100 then q
  else if r = 100 then (if q % 2 = 0 then q else q + 1)
  else q + 1

/-- The metadata record built by `tps_ai_clean` (lines 145-153).  The
`source` constant and the wall-clock `processed_at` timestamp are
omitted: they carry no information about the text. -/
structure Metadata where
  word_count : Nat
  char_count : Nat
  language_guess : String
  tags : List (List Char)
  reading_time_minutes : Nat
deriving DecidableEq, Repr

/-- `tps_ai_clean` (lines 125-155). -/
def tps_ai_clean (raw : List Char) : List Char × Metadata :=
  let cleaned := simple_normalize raw
  let wc := (wordRuns cleaned).length
  (cleaned,
    { word_count := wc
      char_count := cleaned.length
      language_guess := infer_language_guess cleaned
      tags := extract_tags cleaned
      reading_time_minutes := max 1 (roundHalfEvenDiv200 wc) })

/-! ### Concrete inputs used by the example claims -/

/-- The spec's worked example input `"Hello   world\t#fun #fun testingword"`. -/
def exInput : List Char := ("Hello   world\t#fun #fun testingword").toList

/-- An input on which the mangled quote replacement of line 104 is not
idempotent: wrapping `mangledPat` so that replacing its occurrence
re-creates `mangledPat` itself. -/
def badInput : List Char :=
  [',', ' ', apos] ++ mangledPat ++ [apos, ')', '.', 'r', 'e', 'p', 'l', 'a', 'c', 'e', '(']

/-! ### Helper lemmas about the language-guess character sets -/

lemma cyr_nonascii {c : Char} (h : isCyrillicChar c = true) : 128 ≤ c.toNat := by
  simp only [isCyrillicChar, Bool.or_eq_true, Bool.and_eq_true, decide_eq_true_eq] at h
  omega

lemma cjk_nonascii {c : Char} (h : isCJKChar c = true) : 128 ≤ c.toNat := by
  simp only [isCJKChar, Bool.or_eq_true, Bool.and_eq_true, decide_eq_true_eq] at h
  omega

lemma spanish_nonascii {c : Char} (h : isSpanishChar c = true) : 128 ≤ c.toNat := by
  simp only [isSpanishChar, Bool.or_eq_true, decide_eq_true_eq] at h
  rcases h with ((((((((h | h) | h) | h) | h) | h) | h) | h) | h) <;> subst h <;> decide

lemma french_nonascii {c : Char} (h : isFrenchChar c = true) : 128 ≤ c.toNat := by
  simp only [isFrenchChar, Bool.or_eq_true, decide_eq_true_eq] at h
  rcases h with
    (((((((((((((((h | h) | h) | h) | h) | h) | h) | h) | h) | h) | h) | h) | h) | h) | h) | h) <;>
    subst h <;> decide

lemma german_nonascii {c : Char} (h : isGermanChar c = true) : 128 ≤ c.toNat := by
  simp only [isGermanChar, Bool.or_eq_true, decide_eq_true_eq] at h
  rcases h with ((h | h) | h) | h <;> subst h <;> decide

/-- The four German letters, the only non-ASCII characters allowed by
claim C10's hypothesis. -/
def germanSet : List Char := ['ä', 'ö', 'ü', 'ß']

lemma german_char_cases {c : Char} (h : isGermanChar c = true) :
    c = 'ä' ∨ c = 'ö' ∨ c = 'ü' ∨ c = 'ß' := by
  simp only [isGermanChar, Bool.or_eq_true, decide_eq_true_eq] at h
  tauto

/-- Branch extraction lemmas for `infer_language_guess`. -/
lemma ilg_eq_spanish {t : List Char} (h1 : ¬ t.any isCyrillicChar = true)
    (h2 : ¬ t.any isCJKChar = true) (h3 : t.any isSpanishChar = true) :
    infer_language_guess t = "Spanish" := by
  simp [infer_language_guess, h1, h2, h3]

lemma ilg_eq_french {t : List Char} (h1 : ¬ t.any isCyrillicChar = true)
    (h2 : ¬ t.any isCJKChar = true) (h3 : ¬ t.any isSpanishChar = true)
    (h4 : t.any isFrenchChar = true) :
    infer_language_guess t = "French" := by
  simp [infer_language_guess, h1, h2, h3, h4]

lemma ilg_eq_german {t : List Char} (h1 : ¬ t.any isCyrillicChar = true)
    (h2 : ¬ t.any isCJKChar = true) (h3 : ¬ t.any isSpanishChar = true)
    (h4 : ¬ t.any isFrenchChar = true) (h5 : t.any isGermanChar = true) :
    infer_language_guess t = "German" := by
  simp [infer_language_guess, h1, h2, h3, h4, h5]

/-- Under C10's hypothesis, the Cyrillic and CJK checks never fire. -/
lemma no_cyr_cjk {t : List Char} (h : ∀ c ∈ t, 128 ≤ c.toNat → c ∈ germanSet) :
    ¬ t.any isCyrillicChar = true ∧ ¬ t.any isCJKChar = true := by
  constructor
  · intro hany
    obtain ⟨c, hct, hcc⟩ := List.any_eq_true.mp hany
    have hg := h c hct (cyr_nonascii hcc)
    have hfalse := (by decide : ∀ x ∈ germanSet, isCyrillicChar x = false) c hg
    rw [hfalse] at hcc; exact Bool.false_ne_true hcc
  · intro hany
    obtain ⟨c, hct, hcc⟩ := List.any_eq_true.mp hany
    have hg := h c hct (cjk_nonascii hcc)
    have hfalse := (by decide : ∀ x ∈ germanSet, isCJKChar x = false) c hg
    rw [hfalse] at hcc; exact Bool.false_ne_true hcc

/-! ### Claims C5, C6, C7, C8, C10 -/

/-- C5 (counterexample): on the spec's example input the tags are NOT
`["fun", "testingword"]` — the tokens `hello` and `world` (length
exactly 5, which `{5,}` admits) are appended as well. -/
theorem c5_tags_counterexample :
    (tps_ai_clean exInput).2.tags ≠ [("fun").toList, ("testingword").toList] := by
  decide

/-- C5 (amended): on input `"Hello   world\t#fun #fun testingword"`,
processing produces clean text `"Hello world #fun #fun testingword"`,
tags `["fun", "hello", "world", "testingword"]`, word count 5, language
guess `"English"` and reading time 1 minute. -/
theorem c5_example_output :
    (tps_ai_clean exInput).1 = ("Hello world #fun #fun testingword").toList ∧
    (tps_ai_clean exInput).2.tags =
      [("fun").toList, ("hello").toList, ("world").toList, ("testingword").toList] ∧
    (tps_ai_clean exInput).2.word_count = 5 ∧
    (tps_ai_clean exInput).2.language_guess = "English" ∧
    (tps_ai_clean exInput).2.reading_time_minutes = 1 := by
  decide

/-- C6 (code bug): the normalizer of the source is NOT idempotent.
Line 104 parses as a triple-quoted string, so instead of straightening
curly quotes it replaces the 15-character substring `mangledPat` with a
double quote; on `badInput` the first pass re-creates `mangledPat`,
which a second pass then replaces again. -/
theorem c6_normalize_not_idempotent :
    simple_normalize badInput = mangledPat ∧
    simple_normalize mangledPat = [dq] ∧
    simple_normalize (simple_normalize badInput) ≠ simple_normalize badInput := by
  decide

/-- C7: the language checks run in fixed priority order with the
Cyrillic range first, so any text containing a Cyrillic character is
classified `"Russian"` regardless of the other characters present. -/
theorem c7_cyrillic_first :
    ∀ (t : List Char) (c : Char), c ∈ t → isCyrillicChar c = true →
      infer_language_guess t = "Russian" := by
  intro t c hc hcyr
  have hany : t.any isCyrillicChar = true := List.any_eq_true.mpr ⟨c, hc, hcyr⟩
  simp [infer_language_guess, hany]

/-- Witness for C7 at the concrete text `"Привет hi"`. -/
theorem c7_cyrillic_first_witness :
    infer_language_guess (("Привет hi").toList) = "Russian" :=
  c7_cyrillic_first (("Привет hi").toList) 'П' (by decide) (by decide)

/-- C8: for every input text the reading time is
`max 1 (round(word_count / 200))` with Python's half-to-even rounding —
in particular at least 1, and exactly 1 for empty text. -/
theorem c8_reading_time :
    (∀ t : List Char,
        1 ≤ (tps_ai_clean t).2.reading_time_minutes ∧
        (tps_ai_clean t).2.reading_time_minutes =
          max 1 (roundHalfEvenDiv200 ((tps_ai_clean t).2.word_count))) ∧
    (tps_ai_clean []).2.reading_time_minutes = 1 := by
  refine ⟨fun t => ⟨Nat.le_max_left _ _, rfl⟩, ?_⟩
  decide

/-- C10: for a text whose non-ASCII characters are German letters only:
`ü` forces `"Spanish"`; failing that, `ä` or `ö` forces `"French"`; and
`"German"` is returned exactly when `ß` occurs and none of the
characters matched by the earlier-priority sets (which here reduce to
`ü`, `ä`, `ö`) occur. -/
theorem c10_german_letters :
    ∀ t : List Char, (∀ c ∈ t, 128 ≤ c.toNat → c ∈ germanSet) →
      (('ü' ∈ t → infer_language_guess t = "Spanish") ∧
       ('ü' ∉ t → ('ä' ∈ t ∨ 'ö' ∈ t) → infer_language_guess t = "French") ∧
       (infer_language_guess t = "German" ↔
         ('ß' ∈ t ∧ 'ü' ∉ t ∧ 'ä' ∉ t ∧ 'ö' ∉ t))) := by
  intro t h
  obtain ⟨hcyr, hcjk⟩ := no_cyr_cjk h
  have hspaU : t.any isSpanishChar = true → 'ü' ∈ t := by
    intro hany
    obtain ⟨c, hct, hcc⟩ := List.any_eq_true.mp hany
    have hg := h c hct (spanish_nonascii hcc)
    have := (by decide : ∀ x ∈ germanSet, isSpanishChar x = true → x = 'ü') c hg hcc
    rwa [this] at hct
  have hfreU : t.any isFrenchChar = true → 'ä' ∈ t ∨ 'ö' ∈ t ∨ 'ü' ∈ t := by
    intro hany
    obtain ⟨c, hct, hcc⟩ := List.any_eq_true.mp hany
    have hg := h c hct (french_nonascii hcc)
    have hc3 := (by decide :
      ∀ x ∈ germanSet, isFrenchChar x = true → x = 'ä' ∨ x = 'ö' ∨ x = 'ü') c hg hcc
    rcases hc3 with rfl | rfl | rfl
    · exact Or.inl hct
    · exact Or.inr (Or.inl hct)
    · exact Or.inr (Or.inr hct)
  refine ⟨?_, ?_, ?_⟩
  · intro hu
    exact ilg_eq_spanish hcyr hcjk
      (List.any_eq_true.mpr ⟨'ü', hu, by decide⟩)
  · intro hu hao
    have hspa : ¬ t.any isSpanishChar = true := fun hx => hu (hspaU hx)
    rcases hao with ha | ho
    · exact ilg_eq_french hcyr hcjk hspa (List.any_eq_true.mpr ⟨'ä', ha, by decide⟩)
    · exact ilg_eq_french hcyr hcjk hspa (List.any_eq_true.mpr ⟨'ö', ho, by decide⟩)
  · constructor
    · intro hg
      by_cases hspa : t.any isSpanishChar = true
      · rw [ilg_eq_spanish hcyr hcjk hspa] at hg; exact absurd hg (by decide)
      by_cases hfre : t.any isFrenchChar = true
      · rw [ilg_eq_french hcyr hcjk hspa hfre] at hg; exact absurd hg (by decide)
      by_cases hger : t.any isGermanChar = true
      · have hNoA : 'ä' ∉ t := fun hx =>
          hfre (List.any_eq_true.mpr ⟨'ä', hx, by decide⟩)
        have hNoO : 'ö' ∉ t := fun hx =>
          hfre (List.any_eq_true.mpr ⟨'ö', hx, by decide⟩)
        have hNoU : 'ü' ∉ t := fun hx =>
          hfre (List.any_eq_true.mpr ⟨'ü', hx, by decide⟩)
        obtain ⟨c, hct, hcc⟩ := List.any_eq_true.mp hger
        rcases german_char_cases hcc with rfl | rfl | rfl | rfl
        · exact absurd hct hNoA
        · exact absurd hct hNoO
        · exact absurd hct hNoU
        · exact ⟨hct, hNoU, hNoA, hNoO⟩
      · simp [infer_language_guess, hcyr, hcjk, hspa, hfre, hger] at hg
    · rintro ⟨hSS, hNoU, hNoA, hNoO⟩
      have hspa : ¬ t.any isSpanishChar = true := fun hx => hNoU (hspaU hx)
      have hfre : ¬ t.any isFrenchChar = true := fun hx => by
        rcases hfreU hx with hx | hx | hx
        · exact hNoA hx
        · exact hNoO hx
        · exact hNoU hx
      exact ilg_eq_german hcyr hcjk hspa hfre
        (List.any_eq_true.mpr ⟨'ß', hSS, by decide⟩)

/-- Witness for C10 at the concrete text `"Groß"`: its only non-ASCII
character is `ß`, and the guess is `"German"`. -/
theorem c10_german_letters_witness :
    infer_language_guess (("Groß").toList) = "German" :=
  (c10_german_letters (("Groß").toList) (by decide)).2.2.mpr
    ⟨by decide, by decide, by decide, by decide⟩

/-! ### Claim C4: shape of the tag list -/

lemma dedupFirstAux_sublist : ∀ (l seen : List (List Char)), dedupFirstAux seen l <+ l := by
  intro l
  induction l with
  | nil => intro seen; simp [dedupFirstAux]
  | cons x xs ih =>
    intro seen
    simp only [dedupFirstAux]
    split
    · exact (ih seen).cons x
    · exact (ih (x :: seen)).cons₂ x

lemma dedupFirstAux_not_mem_seen :
    ∀ {l seen : List (List Char)} {x : List Char},
      x ∈ dedupFirstAux seen l → x ∉ seen := by
  intro l
  induction l with
  | nil => intro seen x hx; simp [dedupFirstAux] at hx
  | cons y ys ih =>
    intro seen x hx
    simp only [dedupFirstAux] at hx
    split at hx
    · exact ih hx
    · rcases List.mem_cons.mp hx with rfl | hx2
      · intro hxs; exact absurd hxs (by assumption)
      · intro hxs; exact (ih hx2) (List.mem_cons_of_mem _ hxs)

lemma dedupFirstAux_nodup : ∀ (l seen : List (List Char)), (dedupFirstAux seen l).Nodup := by
  intro l
  induction l with
  | nil => intro seen; simp [dedupFirstAux]
  | cons y ys ih =>
    intro seen
    simp only [dedupFirstAux]
    split
    · exact ih seen
    · refine List.nodup_cons.mpr ⟨fun hy => ?_, ih (y :: seen)⟩
      exact (dedupFirstAux_not_mem_seen hy) (List.mem_cons_self y seen)

/-- The Python append loop adds, after the hashtag list, some
subsequence of the first five tokens. -/
lemma foldl_appendIfNew :
    ∀ (toks acc : List (List Char)),
      ∃ s, s <+ toks ∧ toks.foldl appendIfNew acc = acc ++ s := by
  intro toks
  induction toks with
  | nil => intro acc; exact ⟨[], List.Sublist.refl _, by simp⟩
  | cons tok toks ih =>
    intro acc
    simp only [List.foldl_cons]
    by_cases h : tok ∈ acc
    · obtain ⟨s, hs, he⟩ := ih acc
      exact ⟨s, hs.cons _, by simpa [appendIfNew, h] using he⟩
    · obtain ⟨s, hs, he⟩ := ih (acc ++ [tok])
      refine ⟨tok :: s, hs.cons₂ _, ?_⟩
      simp only [appendIfNew, h, if_neg, ite_false]
      rw [he, List.append_assoc]
      rfl

/-- C4: for every input text the tag list has at most 10 entries,
contains no duplicates, and is an order-preserving subsequence of the
hashtag matches followed by the first five candidate tokens (first
hashtags in order, then appended tokens in order, first occurrence
kept). -/
theorem c4_tags_shape :
    ∀ t : List Char,
      (extract_tags t).length ≤ 10 ∧ (extract_tags t).Nodup ∧
      extract_tags t <+ findHashtags t ++ (findTokens (lowerList t)).take 5 := by
  intro t
  obtain ⟨s, hs, he⟩ :=
    foldl_appendIfNew ((findTokens (lowerList t)).take 5) (findHashtags t)
  refine ⟨?_, ?_, ?_⟩
  · rw [extract_tags, List.length_take]
    exact Nat.min_le_left _ _
  · exact List.Nodup.sublist (List.take_sublist _ _) (dedupFirstAux_nodup _ [])
  · calc
      extract_tags t <+ dedupFirst
          (((findTokens (lowerList t)).take 5).foldl appendIfNew (findHashtags t)) :=
        List.take_sublist _ _
      _ <+ ((findTokens (lowerList t)).take 5).foldl appendIfNew (findHashtags t) :=
        dedupFirstAux_sublist _ _
      _ = findHashtags t ++ s := he
      _ <+ findHashtags t ++ (findTokens (lowerList t)).take 5 :=
        hs.append_left _

/-! ### The store: raw entries, cleaned entries, core operations -/

/-- `raw_entries.status`: `pending | processed | error` (DDL line 40). -/
inductive Status where
  | pending
  | processed
  | error
deriving DecidableEq, Repr

/-- A row of `raw_entries` (id, text, status; the wall-clock
`created_at` column is omitted). -/
structure RawEntry where
  id : Nat
  text : List Char
  status : Status
deriving DecidableEq, Repr

/-- A row of `cleaned_entries` (id, raw_id, clean_text, metadata;
`created_at` omitted as above, `metadata_json` kept structured). -/
structure CleanedEntry where
  id : Nat
  raw_id : Nat
  clean_text : List Char
  meta : Metadata
deriving DecidableEq, Repr

/-- The database: both tables in rowid order plus the AUTOINCREMENT
counters (SQLite hands out row ids from 1). -/
structure DB where
  raws : List RawEntry
  cleaned : List CleanedEntry
  nextRawId : Nat
  nextCleanId : Nat
deriving DecidableEq, Repr

/-- A freshly created database: the DDL schema with no rows. -/
def DB.init : DB := ⟨[], [], 1, 1⟩

/-- `add_raw` (lines 160-167): INSERT with status `'pending'`; returns
the new row id (`cur.lastrowid`). -/
def add_raw (db : DB) (text : List Char) : DB × Nat :=
  (⟨db.raws ++ [⟨db.nextRawId, text, Status.pending⟩], db.cleaned,
    db.nextRawId + 1, db.nextCleanId⟩, db.nextRawId)

/-- `SELECT * FROM raw_entries WHERE status='pending' ORDER BY id`
(line 171; `raws` is kept in insertion order, which is id order). -/
def pendingRows (db : DB) : List RawEntry :=
  db.raws.filter (fun r => decide (r.status = Status.pending))

/-- `UPDATE raw_entries SET status=? WHERE id=?`. -/
def setStatus (raws : List RawEntry) (rid : Nat) (s : Status) : List RawEntry :=
  raws.map (fun r => if r.id = rid then { r with status := s } else r)

/-- The loop of `process_pending` (lines 174-186) over the snapshot of
pending rows.  The cleaning step is a parameter `clean`: `none` models
`tps_ai_clean` (or the subsequent INSERT) raising an exception, which
the `except` branch turns into status `'error'` with no cleaned row;
`some` is the normal path inserting the cleaned row and setting status
`'processed'`.  `ok` and `err` are the two counters. -/
def processGo (clean : List Char → Option (List Char × Metadata)) :
    List RawEntry → DB → Nat → Nat → DB × Nat × Nat
  | [], db, ok, err => (db, ok, err)
  | r :: rows, db, ok, err =>
    match clean r.text with
    | some (ct, meta) =>
      processGo clean rows
        ⟨setStatus db.raws r.id Status.processed,
         db.cleaned ++ [⟨db.nextCleanId, r.id, ct, meta⟩],
         db.nextRawId, db.nextCleanId + 1⟩ (ok + 1) err
    | none =>
      processGo clean rows
        ⟨setStatus db.raws r.id Status.error, db.cleaned,
         db.nextRawId, db.nextCleanId⟩ ok (err + 1)

/-- `process_pending` with the cleaning step abstracted. -/
def processPendingWith (clean : List Char → Option (List Char × Metadata))
    (db : DB) : DB × Nat × Nat :=
  processGo clean (pendingRows db) db 0 0

/-- `process_pending` (lines 169-189): clean every pending row with
`tps_ai_clean` (which, embedded as a total function, never fails). -/
def process_pending (db : DB) : DB × Nat × Nat :=
  processPendingWith (fun t => some (tps_ai_clean t)) db

/-- `count_stats` (lines 257-262): total rows, processed rows, error
rows. -/
def count_stats (db : DB) : Nat × Nat × Nat :=
  (db.raws.length,
   (db.raws.filter (fun r => decide (r.status = Status.processed))).length,
   (db.raws.filter (fun r => decide (r.status = Status.error))).length)

/-- Number of cleaned rows in a list whose `raw_id` equals `rid`. -/
def cleanCount (cl : List CleanedEntry) (rid : Nat) : Nat :=
  (cl.filter (fun c => decide (c.raw_id = rid))).length

/-- Number of cleaned rows of the database whose `raw_id` equals `rid`. -/
def cleanCountFor (db : DB) (rid : Nat) : Nat := cleanCount db.cleaned rid

/-- Database states reachable from a fresh database by the core
operations: ingesting text and running processing batches, with an
arbitrary outcome of the cleaning step for each row (covering both the
normal path and per-row exceptions). -/
inductive Reachable : DB → Prop where
  | init : Reachable DB.init
  | add (db : DB) (t : List Char) : Reachable db → Reachable (add_raw db t).1
  | process (db : DB) (clean : List Char → Option (List Char × Metadata)) :
      Reachable db → Reachable (processPendingWith clean db).1

/-- Structural invariant of the store: raw ids are distinct and below
the autoincrement counter, every cleaned row references an existing raw
row (the `FOREIGN KEY`), and the status of a raw row determines how
many cleaned rows point at it (the invariant of claim C1). -/
structure DBInv (db : DB) : Prop where
  nodup : (db.raws.map RawEntry.id).Nodup
  bound : ∀ r ∈ db.raws, r.id < db.nextRawId
  fk : ∀ c ∈ db.cleaned, ∃ r ∈ db.raws, r.id = c.raw_id
  link : ∀ r ∈ db.raws,
    (r.status = Status.processed → cleanCountFor db r.id = 1) ∧
    (r.status ≠ Status.processed → cleanCountFor db r.id = 0)

/-! ### Basic lemmas about the store operations -/

lemma setStatus_map_id (raws : List RawEntry) (rid : Nat) (s : Status) :
    (setStatus raws rid s).map RawEntry.id = raws.map RawEntry.id := by
  induction raws with
  | nil => rfl
  | cons r rs ih =>
    by_cases h : r.id = rid <;> simp only [setStatus, List.map_cons] at ih ⊢ <;>
      simp [h, ih]

lemma mem_setStatus {raws : List RawEntry} {rid : Nat} {s : Status} {r2 : RawEntry} :
    r2 ∈ setStatus raws rid s ↔
      ∃ r0 ∈ raws, (if r0.id = rid then { r0 with status := s } else r0) = r2 := by
  simp [setStatus, List.mem_map]

lemma cleanCount_append (cl1 cl2 : List CleanedEntry) (x : Nat) :
    cleanCount (cl1 ++ cl2) x = cleanCount cl1 x + cleanCount cl2 x := by
  simp [cleanCount, List.filter_append]

lemma cleanCount_single (c0 : CleanedEntry) (x : Nat) :
    cleanCount [c0] x = if c0.raw_id = x then 1 else 0 := by
  by_cases h : c0.raw_id = x <;> simp [cleanCount, h]

/-! ### Preservation of the invariant by the core operations -/

lemma dbinv_init : DBInv DB.init := by
  refine ⟨by simp [DB.init], ?_, ?_, ?_⟩ <;> intro x hx <;> simp [DB.init] at hx

lemma dbinv_add (db : DB) (t : List Char) (hInv : DBInv db) : DBInv (add_raw db t).1 := by
  have hnotin : db.nextRawId ∉ db.raws.map RawEntry.id := by
    intro hx
    obtain ⟨r0, h0, he⟩ := List.mem_map.mp hx
    have := hInv.bound r0 h0
    omega
  refine ⟨?_, ?_, ?_, ?_⟩
  · simp only [add_raw, List.map_append, List.map_cons, List.map_nil]
    rw [List.nodup_append]
    exact ⟨hInv.nodup, List.nodup_singleton _,
      fun a ha hb => by simp at hb; subst hb; exact hnotin ha⟩
  · intro r2 h2
    rcases List.mem_append.mp h2 with h | h
    · have := hInv.bound r2 h
      simp only [add_raw]
      omega
    · simp at h
      subst h
      simp [add_raw]
  · intro c hc
    obtain ⟨r0, h0, he⟩ := hInv.fk c hc
    exact ⟨r0, List.mem_append_left _ h0, he⟩
  · intro r2 h2
    have hcnt : ∀ x, cleanCountFor (add_raw db t).1 x = cleanCountFor db x := fun x => rfl
    rcases List.mem_append.mp h2 with h | h
    · obtain ⟨l1, l2⟩ := hInv.link r2 h
      refine ⟨fun hx => ?_, fun hx => ?_⟩
      · rw [hcnt]; exact l1 hx
      · rw [hcnt]; exact l2 hx
    · simp at h
      subst h
      refine ⟨fun hx => Status.noConfusion hx, fun _ => ?_⟩
      rw [hcnt]
      show cleanCount db.cleaned db.nextRawId = 0
      rw [cleanCount, List.length_eq_zero, List.filter_eq_nil_iff]
      intro c hc
      obtain ⟨r0, h0, he⟩ := hInv.fk c hc
      have := hInv.bound r0 h0
      simp only [decide_eq_true_eq]
      omega

lemma dbinv_step_success {db : DB} {r : RawEntry} (hInv : DBInv db)
    (hr : r ∈ db.raws) (hrp : r.status = Status.pending)
    (ct : List Char) (meta : Metadata) :
    DBInv ⟨setStatus db.raws r.id Status.processed,
           db.cleaned ++ [⟨db.nextCleanId, r.id, ct, meta⟩],
           db.nextRawId, db.nextCleanId + 1⟩ := by
  have hinj := List.inj_on_of_nodup_map hInv.nodup
  have hrnp : r.status ≠ Status.processed := by rw [hrp]; decide
  refine ⟨?_, ?_, ?_, ?_⟩
  · show ((setStatus db.raws r.id Status.processed).map RawEntry.id).Nodup
    rw [setStatus_map_id]
    exact hInv.nodup
  · intro r2 h2
    obtain ⟨r0, h0, h0e⟩ := mem_setStatus.mp h2
    subst h0e
    by_cases hc : r0.id = r.id
    · rw [if_pos hc]
      simpa [hc] using hInv.bound r0 h0
    · rw [if_neg hc]
      exact hInv.bound r0 h0
  · intro c hc
    rcases List.mem_append.mp hc with hco | hcn
    · obtain ⟨r0, h0, he⟩ := hInv.fk c hco
      refine ⟨if r0.id = r.id then { r0 with status := Status.processed } else r0,
        mem_setStatus.mpr ⟨r0, h0, rfl⟩, ?_⟩
      by_cases hc2 : r0.id = r.id <;> simp [hc2, ← he]
    · simp only [List.mem_singleton] at hcn
      subst hcn
      exact ⟨{ r with status := Status.processed },
        mem_setStatus.mpr ⟨r, hr, by simp⟩, by simp⟩
  · intro r2 h2
    obtain ⟨r0, h0, h0e⟩ := mem_setStatus.mp h2
    subst h0e
    by_cases hc : r0.id = r.id
    · have hr0 : r0 = r := hinj h0 hr hc
      subst hr0
      simp only [if_pos hc]
      have hzero : cleanCount db.cleaned r0.id = 0 := (hInv.link r0 h0).2 hrnp
      refine ⟨fun _ => ?_, fun hne => absurd rfl hne⟩
      show cleanCount (db.cleaned ++ [⟨db.nextCleanId, r0.id, ct, meta⟩]) r0.id = 1
      rw [cleanCount_append, cleanCount_single, hzero]
      simp
    · simp only [if_neg hc]
      have hcnt : cleanCount (db.cleaned ++ [⟨db.nextCleanId, r.id, ct, meta⟩]) r0.id =
          cleanCount db.cleaned r0.id := by
        rw [cleanCount_append, cleanCount_single]
        simp only [if_neg (fun hx : r.id = r0.id => hc hx.symm), Nat.add_zero]
      obtain ⟨l1, l2⟩ := hInv.link r0 h0
      constructor
      · intro hx
        show cleanCount (db.cleaned ++ [⟨db.nextCleanId, r.id, ct, meta⟩]) r0.id = 1
        rw [hcnt]
        exact l1 hx
      · intro hx
        show cleanCount (db.cleaned ++ [⟨db.nextCleanId, r.id, ct, meta⟩]) r0.id = 0
        rw [hcnt]
        exact l2 hx

lemma dbinv_step_error {db : DB} {r : RawEntry} (hInv : DBInv db)
    (hr : r ∈ db.raws) (hrp : r.status = Status.pending) :
    DBInv ⟨setStatus db.raws r.id Status.error, db.cleaned,
           db.nextRawId, db.nextCleanId⟩ := by
  have hinj := List.inj_on_of_nodup_map hInv.nodup
  have hrnp : r.status ≠ Status.processed := by rw [hrp]; decide
  refine ⟨?_, ?_, ?_, ?_⟩
  · show ((setStatus db.raws r.id Status.error).map RawEntry.id).Nodup
    rw [setStatus_map_id]
    exact hInv.nodup
  · intro r2 h2
    obtain ⟨r0, h0, h0e⟩ := mem_setStatus.mp h2
    subst h0e
    by_cases hc : r0.id = r.id
    · rw [if_pos hc]
      simpa [hc] using hInv.bound r0 h0
    · rw [if_neg hc]
      exact hInv.bound r0 h0
  · intro c hc
    obtain ⟨r0, h0, he⟩ := hInv.fk c hc
    refine ⟨if r0.id = r.id then { r0 with status := Status.error } else r0,
      mem_setStatus.mpr ⟨r0, h0, rfl⟩, ?_⟩
    by_cases hc2 : r0.id = r.id <;> simp [hc2, ← he]
  · intro r2 h2
    obtain ⟨r0, h0, h0e⟩ := mem_setStatus.mp h2
    subst h0e
    have hcnt : ∀ x, cleanCountFor
        ⟨setStatus db.raws r.id Status.error, db.cleaned,
         db.nextRawId, db.nextCleanId⟩ x = cleanCountFor db x := fun x => rfl
    by_cases hc : r0.id = r.id
    · have hr0 : r0 = r := hinj h0 hr hc
      subst hr0
      simp only [if_pos hc]
      have hzero : cleanCountFor db r0.id = 0 := (hInv.link r0 h0).2 hrnp
      exact ⟨fun hx => Status.noConfusion hx, fun _ => by rw [hcnt]; exact hzero⟩
    · simp only [if_neg hc]
      obtain ⟨l1, l2⟩ := hInv.link r0 h0
      exact ⟨fun hx => by rw [hcnt]; exact l1 hx, fun hx => by rw [hcnt]; exact l2 hx⟩

/-- The rows a processing loop still has to visit: each is a pending row
of the database and their ids are distinct. -/
def RowsOK (db : DB) (rows : List RawEntry) : Prop :=
  (∀ r ∈ rows, r ∈ db.raws ∧ r.status = Status.pending) ∧
  (rows.map RawEntry.id).Nodup

lemma rowsOK_setStatus {db : DB} {r : RawEntry} {rows : List RawEntry} (s : Status)
    (hOK : RowsOK db (r :: rows)) (cl2 : List CleanedEntry) (a b : Nat) :
    RowsOK ⟨setStatus db.raws r.id s, cl2, a, b⟩ rows := by
  obtain ⟨hmem, hnd⟩ := hOK
  have hnd2 : (r.id :: rows.map RawEntry.id).Nodup := by simpa using hnd
  have hne : ∀ r2 ∈ rows, r2.id ≠ r.id := by
    intro r2 h2 he
    exact (List.nodup_cons.mp hnd2).1 (he ▸ List.mem_map_of_mem RawEntry.id h2)
  constructor
  · intro r2 h2
    obtain ⟨h2m, h2p⟩ := hmem r2 (List.mem_cons_of_mem r h2)
    exact ⟨mem_setStatus.mpr ⟨r2, h2m, if_neg (hne r2 h2)⟩, h2p⟩
  · exact (List.nodup_cons.mp hnd2).2

lemma processGo_inv (clean : List Char → Option (List Char × Metadata)) :
    ∀ (rows : List RawEntry) (db : DB) (ok err : Nat),
      DBInv db → RowsOK db rows → DBInv (processGo clean rows db ok err).1 := by
  intro rows
  induction rows with
  | nil =>
    intro db ok err hInv _
    simpa [processGo] using hInv
  | cons r rows ih =>
    intro db ok err hInv hOK
    obtain ⟨hr, hrp⟩ := hOK.1 r (List.mem_cons_self r rows)
    cases hcl : clean r.text with
    | some p =>
      obtain ⟨ct, meta⟩ := p
      simp only [processGo, hcl]
      exact ih _ _ _ (dbinv_step_success hInv hr hrp ct meta)
        (rowsOK_setStatus _ hOK _ _ _)
    | none =>
      simp only [processGo, hcl]
      exact ih _ _ _ (dbinv_step_error hInv hr hrp)
        (rowsOK_setStatus _ hOK _ _ _)

lemma rowsOK_pendingRows {db : DB} (hInv : DBInv db) : RowsOK db (pendingRows db) := by
  constructor
  · intro r hrr
    have h := List.mem_filter.mp hrr
    exact ⟨h.1, by simpa using h.2⟩
  · exact List.Nodup.sublist ((List.filter_sublist _).map RawEntry.id) hInv.nodup

/-- Every reachable database state satisfies the structural invariant. -/
lemma reachable_inv : ∀ {db : DB}, Reachable db → DBInv db := by
  intro db h
  induction h with
  | init => exact dbinv_init
  | add db t _ ih => exact dbinv_add db t ih
  | process db clean _ ih =>
    exact processGo_inv clean (pendingRows db) db 0 0 ih (rowsOK_pendingRows ih)

/-! ### The counters and the per-row error behaviour of the loop -/

lemma processGo_counts (clean : List Char → Option (List Char × Metadata)) :
    ∀ (rows : List RawEntry) (db : DB) (ok err : Nat),
      (processGo clean rows db ok err).2.1 =
        ok + (rows.filter (fun r => (clean r.text).isSome)).length ∧
      (processGo clean rows db ok err).2.2 =
        err + (rows.filter (fun r => (clean r.text).isNone)).length := by
  intro rows
  induction rows with
  | nil => intro db ok err; simp [processGo]
  | cons r rows ih =>
    intro db ok err
    cases hcl : clean r.text with
    | some p =>
      obtain ⟨ct, meta⟩ := p
      simp only [processGo, hcl]
      obtain ⟨h1, h2⟩ := ih _ (ok + 1) err
      rw [h1, h2]
      constructor <;> (simp [List.filter_cons, hcl]; try omega)
    | none =>
      simp only [processGo, hcl]
      obtain ⟨h1, h2⟩ := ih _ ok (err + 1)
      rw [h1, h2]
      constructor <;> (simp [List.filter_cons, hcl]; try omega)

/-- Once a row id is in error state with no cleaned row, processing rows
with other ids never changes that. -/
lemma processGo_preserve (clean : List Char → Option (List Char × Metadata)) :
    ∀ (rows : List RawEntry) (db : DB) (ok err : Nat) (rid : Nat),
      (∀ r ∈ rows, r.id ≠ rid) →
      (∀ r2 ∈ db.raws, r2.id = rid → r2.status = Status.error) →
      cleanCountFor db rid = 0 →
      (∀ r2 ∈ (processGo clean rows db ok err).1.raws, r2.id = rid →
        r2.status = Status.error) ∧
      cleanCountFor (processGo clean rows db ok err).1 rid = 0 := by
  intro rows
  induction rows with
  | nil =>
    intro db ok err rid _ hErr hCnt
    exact ⟨hErr, hCnt⟩
  | cons r rows ih =>
    intro db ok err rid hne hErr hCnt
    have hner : r.id ≠ rid := hne r (List.mem_cons_self r rows)
    have hneTail : ∀ r2 ∈ rows, r2.id ≠ rid := fun r2 h2 =>
      hne r2 (List.mem_cons_of_mem r h2)
    have hstat : ∀ (s : Status) (r2 : RawEntry), r2 ∈ setStatus db.raws r.id s →
        r2.id = rid → r2.status = Status.error := by
      intro s r2 h2 hid
      obtain ⟨r0, h0, h0e⟩ := mem_setStatus.mp h2
      subst h0e
      by_cases hc : r0.id = r.id
      · rw [if_pos hc] at hid ⊢
        exact absurd (hc.symm.trans hid) hner
      · rw [if_neg hc] at hid ⊢
        exact hErr r0 h0 hid
    cases hcl : clean r.text with
    | some p =>
      obtain ⟨ct, meta⟩ := p
      simp only [processGo, hcl]
      apply ih
      · exact hneTail
      · exact hstat Status.processed
      · show cleanCount (db.cleaned ++ [⟨db.nextCleanId, r.id, ct, meta⟩]) rid = 0
        rw [cleanCount_append, cleanCount_single, if_neg hner, Nat.add_zero]
        exact hCnt
    | none =>
      simp only [processGo, hcl]
      apply ih
      · exact hneTail
      · exact hstat Status.error
      · exact hCnt

/-- A pending row whose cleaning fails ends in error state with no
cleaned row pointing at it. -/
lemma processGo_error_row (clean : List Char → Option (List Char × Metadata)) :
    ∀ (rows : List RawEntry) (db : DB) (ok err : Nat) (r : RawEntry),
      (rows.map RawEntry.id).Nodup → r ∈ rows → clean r.text = none →
      cleanCountFor db r.id = 0 →
      (∀ r2 ∈ (processGo clean rows db ok err).1.raws, r2.id = r.id →
        r2.status = Status.error) ∧
      cleanCountFor (processGo clean rows db ok err).1 r.id = 0 := by
  intro rows
  induction rows with
  | nil =>
    intro db ok err r _ hmem
    exact absurd hmem (List.not_mem_nil r)
  | cons r0 rows ih =>
    intro db ok err r hnd hmem hcl hCnt
    have hnd2 : (r0.id :: rows.map RawEntry.id).Nodup := by simpa using hnd
    rcases List.mem_cons.mp hmem with rfl | hmem2
    · simp only [processGo, hcl]
      apply processGo_preserve
      · intro r2 h2 he
        exact (List.nodup_cons.mp hnd2).1 (he ▸ List.mem_map_of_mem RawEntry.id h2)
      · intro r2 h2 hid
        obtain ⟨r1, h1, h1e⟩ := mem_setStatus.mp h2
        subst h1e
        by_cases hc : r1.id = r.id
        · rw [if_pos hc]
        · rw [if_neg hc] at hid ⊢
          exact absurd hid hc
      · exact hCnt
    · have hr0ne : r0.id ≠ r.id := by
        intro he
        exact (List.nodup_cons.mp hnd2).1 (he ▸ List.mem_map_of_mem RawEntry.id hmem2)
      cases hcl0 : clean r0.text with
      | some p =>
        obtain ⟨ct, meta⟩ := p
        simp only [processGo, hcl0]
        apply ih _ _ _ _ (List.nodup_cons.mp hnd2).2 hmem2 hcl
        show cleanCount (db.cleaned ++ [⟨db.nextCleanId, r0.id, ct, meta⟩]) r.id = 0
        rw [cleanCount_append, cleanCount_single, if_neg hr0ne, Nat.add_zero]
        exact hCnt
      | none =>
        simp only [processGo, hcl0]
        exact ih _ _ _ _ (List.nodup_cons.mp hnd2).2 hmem2 hcl hCnt

/-! ### Claims C1, C2, C9 -/

/-- C1: in every reachable database state, a raw entry with status
`processed` has exactly one cleaned entry whose `raw_id` equals its id,
and a raw entry with status `pending` or `error` has none. -/
theorem c1_processed_has_unique_cleaned :
    ∀ db : DB, Reachable db → ∀ r ∈ db.raws,
      (r.status = Status.processed → cleanCountFor db r.id = 1) ∧
      ((r.status = Status.pending ∨ r.status = Status.error) →
        cleanCountFor db r.id = 0) := by
  intro db hreach r hr
  obtain ⟨h1, h2⟩ := (reachable_inv hreach).link r hr
  refine ⟨h1, fun hpe => h2 ?_⟩
  rcases hpe with h | h <;> rw [h] <;> decide

/-- A concrete trace used by the witnesses: ingest `"hi"`, then run one
processing batch with the real cleaning function. -/
def wText : List Char := ("hi").toList

def wClean : List Char → Option (List Char × Metadata) := fun t => some (tps_ai_clean t)

def wDB1 : DB := (add_raw DB.init wText).1

def wDB2 : DB := (processPendingWith wClean wDB1).1

/-- Witness for C1: after ingesting and processing one entry, the raw
row with id 1 is processed and has exactly one cleaned row. -/
theorem c1_processed_has_unique_cleaned_witness : cleanCountFor wDB2 1 = 1 :=
  (c1_processed_has_unique_cleaned wDB2
      (Reachable.process wDB1 wClean (Reachable.add DB.init wText Reachable.init))
      ⟨1, wText, Status.processed⟩ (by decide)).1 (by decide)

/-- C2: one `process_pending` batch, with an arbitrary outcome of the
cleaning step: the returned pair counts the pending rows whose cleaning
succeeded and failed, and every pending row whose cleaning raised ends
with status `error`, no cleaned entry, while the other rows of the
batch are still processed (no abort: the counts sum over the whole
snapshot). -/
theorem c2_per_row_error_handling :
    ∀ (clean : List Char → Option (List Char × Metadata)) (db : DB), Reachable db →
      ((processPendingWith clean db).2.1 =
        ((pendingRows db).filter (fun r => (clean r.text).isSome)).length ∧
       (processPendingWith clean db).2.2 =
        ((pendingRows db).filter (fun r => (clean r.text).isNone)).length) ∧
      ∀ r ∈ db.raws, r.status = Status.pending → clean r.text = none →
        (∀ r2 ∈ (processPendingWith clean db).1.raws, r2.id = r.id →
          r2.status = Status.error) ∧
        cleanCountFor (processPendingWith clean db).1 r.id = 0 := by
  intro clean db hreach
  have hInv := reachable_inv hreach
  constructor
  · obtain ⟨h1, h2⟩ := processGo_counts clean (pendingRows db) db 0 0
    constructor
    · show (processGo clean (pendingRows db) db 0 0).2.1 = _
      rw [h1, Nat.zero_add]
    · show (processGo clean (pendingRows db) db 0 0).2.2 = _
      rw [h2, Nat.zero_add]
  · intro r hr hp hcl
    have h := processGo_error_row clean (pendingRows db) db 0 0 r
      (rowsOK_pendingRows hInv).2
      (List.mem_filter.mpr ⟨hr, by simp [hp]⟩)
      hcl
      ((hInv.link r hr).2 (by rw [hp]; decide))
    exact h

/-- A cleaning step that always raises, for the C2 witness. -/
def wFail : List Char → Option (List Char × Metadata) := fun _ => none

/-- Witness for C2: with a failing cleaning step, the single ingested
row ends in error state with no cleaned entry. -/
theorem c2_per_row_error_handling_witness :
    (∀ r2 ∈ (processPendingWith wFail wDB1).1.raws, r2.id = 1 →
      r2.status = Status.error) ∧
    cleanCountFor (processPendingWith wFail wDB1).1 1 = 0 :=
  (c2_per_row_error_handling wFail wDB1
      (Reachable.add DB.init wText Reachable.init)).2
    ⟨1, wText, Status.pending⟩ (by decide) (by decide) rfl

lemma status_partition : ∀ raws : List RawEntry,
    (raws.filter (fun r => decide (r.status = Status.pending))).length +
    (raws.filter (fun r => decide (r.status = Status.processed))).length +
    (raws.filter (fun r => decide (r.status = Status.error))).length =
      raws.length := by
  intro raws
  induction raws with
  | nil => rfl
  | cons r rs ih =>
    cases hs : r.status <;> simp [List.filter_cons, hs] <;> omega

/-- C9: `count_stats` returns (total N, processed M, errored E), and in
every reachable state the number of pending rows is N − M − E (the
three statuses partition the table). -/
theorem c9_count_stats_identity :
    ∀ db : DB, Reachable db →
      (count_stats db).1 = db.raws.length ∧
      (pendingRows db).length + (count_stats db).2.1 + (count_stats db).2.2 =
        (count_stats db).1 ∧
      (pendingRows db).length =
        (count_stats db).1 - (count_stats db).2.1 - (count_stats db).2.2 := by
  intro db _
  have h := status_partition db.raws
  refine ⟨rfl, ?_, ?_⟩ <;> simp only [count_stats, pendingRows] <;> omega

/-- Witness for C9 at the concrete reachable state `wDB2`. -/
theorem c9_count_stats_identity_witness :
    (pendingRows wDB2).length =
      (count_stats wDB2).1 - (count_stats wDB2).2.1 - (count_stats wDB2).2.2 :=
  (c9_count_stats_identity wDB2
      (Reachable.process wDB1 wClean (Reachable.add DB.init wText Reachable.init))).2.2

/-! ### Claim C3: the search fallback

`search_clean(conn, query, use_fts=False)` runs
`WHERE ce.clean_text LIKE '%query%' ORDER BY ce.id DESC LIMIT 50`.
SQLite `LIKE` is case-insensitive for ASCII letters by default, and `%`
and `_` inside the query act as wildcards in the built pattern.  The
`JOIN raw_entries` only appends the raw timestamp column: under the
foreign-key invariant every cleaned row has its raw row, so the join
drops nothing. -/

/-- One pattern character against one text character: SQLite `LIKE`
folds ASCII case. -/
def likeCharMatch (p c : Char) : Bool := asciiLowerChar p == asciiLowerChar c

/-- Try `f` on every suffix of the text (`%` consumes any prefix). -/
def likeAux (f : List Char → Bool) : List Char → Bool
  | [] => f []
  | c :: ts => f (c :: ts) || likeAux f ts

/-- SQLite `LIKE` matching of a whole text against a pattern, by
recursion on the pattern: `%` matches any (possibly empty) sequence,
`_` matches exactly one character, any other pattern character matches
one text character up to ASCII case. -/
def likeMatchF : List Char → List Char → Bool
  | [] => fun t => t.isEmpty
  | p :: ps =>
    fun t =>
      if p = '%' then likeAux (likeMatchF ps) t
      else
        match t with
        | [] => false
        | c :: ts => (decide (p = '_') || likeCharMatch p c) && likeMatchF ps ts

/-- `search_clean` with the index unavailable (lines 229-245): filter by
`LIKE '%query%'`, id descending (`cleaned` is kept in id order, so
descending is `reverse`), at most 50 results. -/
def searchCleanNoFts (db : DB) (query : List Char) : List CleanedEntry :=
  ((db.cleaned.filter
      (fun c => likeMatchF ('%' :: (query ++ ['%'])) c.clean_text)).reverse).take 50

lemma likeAux_true_iff (f : List Char → Bool) :
    ∀ t : List Char, likeAux f t = true ↔ ∃ s, s <:+ t ∧ f s = true := by
  intro t
  induction t with
  | nil =>
    simp only [likeAux, List.suffix_nil]
    constructor
    · intro h; exact ⟨[], rfl, h⟩
    · rintro ⟨s, rfl, h⟩; exact h
  | cons c ts ih =>
    simp only [likeAux, Bool.or_eq_true, ih]
    constructor
    · rintro (h | ⟨s, hs, h⟩)
      · exact ⟨c :: ts, List.suffix_refl _, h⟩
      · exact ⟨s, List.suffix_cons_iff.mpr (Or.inr hs), h⟩
    · rintro ⟨s, hs, h⟩
      rcases List.suffix_cons_iff.mp hs with rfl | hs2
      · exact Or.inl h
      · exact Or.inr ⟨s, hs2, h⟩

/-- A wildcard-free pattern followed by `%` matches a text iff the
pattern is a prefix of the text up to ASCII case. -/
lemma likeMatchF_literal :
    ∀ (q : List Char), (∀ c ∈ q, c ≠ '%' ∧ c ≠ '_') →
      ∀ t : List Char,
        (likeMatchF (q ++ ['%']) t = true ↔ lowerList q <+: lowerList t) := by
  intro q
  induction q with
  | nil =>
    intro _ t
    simp only [List.nil_append, likeMatchF, reduceIte, likeAux_true_iff]
    constructor
    · intro _; exact List.nil_prefix
    · intro _; exact ⟨[], List.nil_suffix, rfl⟩
  | cons a q2 ih =>
    intro hw t
    obtain ⟨ha1, ha2⟩ := hw a (List.mem_cons_self a q2)
    have ihw := ih (fun c hc => hw c (List.mem_cons_of_mem a hc))
    cases t with
    | nil =>
      simp only [List.cons_append, likeMatchF, if_neg ha1, lowerList, List.map_cons,
        List.map_nil]
      constructor
      · intro h; cases h
      · intro h
        exact absurd (List.prefix_nil.mp h) (by simp)
    | cons c ts =>
      simp only [List.cons_append, likeMatchF, if_neg ha1, Bool.and_eq_true,
        Bool.or_eq_true, decide_eq_true_eq, lowerList, List.map_cons,
        List.cons_prefix_cons]
      constructor
      · rintro ⟨hh, hr⟩
        refine ⟨?_, (ihw ts).mp hr⟩
        rcases hh with hh | hh
        · exact absurd hh ha2
        · exact beq_iff_eq.mp hh
      · rintro ⟨hh, hr⟩
        exact ⟨Or.inr (beq_iff_eq.mpr hh), (ihw ts).mpr hr⟩

/-- A suffix of a lowered text is the lowering of a suffix. -/
lemma suffix_lowerList_inv {u m : List Char} (h : u <:+ lowerList m) :
    ∃ s, s <:+ m ∧ u = lowerList s := by
  obtain ⟨v, hv⟩ := h
  refine ⟨m.drop v.length, List.drop_suffix _ _, ?_⟩
  have h1 : u = (lowerList m).drop v.length := by
    rw [← hv, List.drop_left]
  rw [h1]
  simp [lowerList, List.map_drop]

/-- The full pattern `'%' ++ q ++ '%'` built by the fallback matches a
text iff the query occurs in the text as a substring up to ASCII case
(for wildcard-free queries). -/
lemma likeMatchF_contains (q : List Char) (hw : ∀ c ∈ q, c ≠ '%' ∧ c ≠ '_')
    (t : List Char) :
    likeMatchF ('%' :: (q ++ ['%'])) t = true ↔ lowerList q <:+: lowerList t := by
  have hlit := likeMatchF_literal q hw
  simp only [likeMatchF, reduceIte, likeAux_true_iff]
  constructor
  · rintro ⟨s, hs, h⟩
    exact List.infix_iff_prefix_suffix.mpr
      ⟨lowerList s, (hlit s).mp h, List.IsSuffix.map asciiLowerChar hs⟩
  · intro h
    obtain ⟨u, hp, hs⟩ := List.infix_iff_prefix_suffix.mp h
    obtain ⟨s, hsm, rfl⟩ := suffix_lowerList_inv hs
    exact ⟨s, hsm, (hlit s).mpr hp⟩

/-- A concrete database with one cleaned entry whose clean text is
`"Hello"`, for the C3 counterexample. -/
def exCleanedDB : DB :=
  ⟨[⟨1, ("Hello").toList, Status.processed⟩],
   [⟨1, 1, ("Hello").toList, ⟨1, 5, "English", [], 1⟩⟩], 2, 2⟩

/-- C3 (counterexample): the fallback scan is NOT a case-sensitive
literal-substring filter.  With one cleaned entry `"Hello"`, the query
`"hello"` is returned by the scan although `"hello"` does not occur in
`"Hello"` as a literal substring: SQLite `LIKE` compares ASCII letters
case-insensitively. -/
theorem c3_search_counterexample :
    searchCleanNoFts exCleanedDB (("hello").toList) =
      [⟨1, 1, ("Hello").toList, ⟨1, 5, "English", [], 1⟩⟩] ∧
    ¬ (("hello").toList <:+: ("Hello").toList) := by
  constructor
  · decide
  · decide

/-- C3 (amended): with the index unavailable, for a query containing no
`%` or `_` wildcard characters and a state with at most 50 cleaned
entries, the scan returns exactly the cleaned entries whose clean text
contains the query as a substring up to ASCII case; the implicit
`%...%` wrapping is the only wildcard expansion, but the comparison is
case-insensitive, and `%`/`_` inside the query would act as wildcards. -/
theorem c3_search_fallback_amended :
    ∀ (db : DB) (q : List Char), db.cleaned.length ≤ 50 →
      (∀ c ∈ q, c ≠ '%' ∧ c ≠ '_') →
      ∀ e : CleanedEntry,
        e ∈ searchCleanNoFts db q ↔
          e ∈ db.cleaned ∧ lowerList q <:+: lowerList e.clean_text := by
  intro db q hlen hw e
  have hflen : (db.cleaned.filter
      (fun c => likeMatchF ('%' :: (q ++ ['%'])) c.clean_text)).reverse.length ≤ 50 :=
    le_trans (by rw [List.length_reverse]; exact List.length_filter_le _ _) hlen
  rw [searchCleanNoFts, List.take_of_length_le hflen, List.mem_reverse,
    List.mem_filter]
  exact and_congr_right (fun _ => likeMatchF_contains q hw e.clean_text)

/-- Witness for C3 (amended): in a state holding one cleaned entry with
clean text `"hello world"`, the query `"wor"` matches that entry. -/
def wSearchDB : DB :=
  ⟨[⟨1, ("hello world").toList, Status.processed⟩],
   [⟨1, 1, ("hello world").toList, ⟨2, 11, "English", [], 1⟩⟩], 2, 2⟩

theorem c3_search_fallback_amended_witness :
    (⟨1, 1, ("hello world").toList, ⟨2, 11, "English", [], 1⟩⟩ : CleanedEntry) ∈
      searchCleanNoFts wSearchDB (("wor").toList) :=
  (c3_search_fallback_amended wSearchDB (("wor").toList) (by decide)
      (by decide) _).mpr ⟨by decide, by decide⟩

end TPS
